import Mathlib

/-!
# Verification development for the `arc` archiving core (`archiver.go`)

Shallow embedding of the path-resolution code (`makeDirMap`, `MakeFilesMap`), the
format registry (`CompressionMap`, `ArchivalMap`) and the archive pipeline
(`Archive`, `ArchiveFiles`) together with the theorems about them.

Conventions of the embedding

* A Go `string` is a `List Char` (`GoString`).  The code only ever inspects the
  ASCII bytes `/` and `.`, which never occur inside a multi-byte UTF-8 sequence, so
  working on characters instead of bytes does not change any result.
* Paths follow the Unix build of `path/filepath` (`Separator = '/'`, no volume names).
* The operating system and the `archives` library are collaborators: they are
  fields of the structure `Sys`, and the filesystem is passed explicitly as a state.
-/

namespace Arc

/-! ## Strings and the Unix `path/filepath` functions used by `archiver.go` -/

/-- A Go string. -/
abbrev GoString := List Char

/-- Value of `filepath.Separator` on Unix. -/
def Separator : Char := '/'

/-- Function `os.IsPathSeparator` on Unix: `PathSeparator == c`. -/
def IsPathSeparator (c : Char) : Bool := c == Separator

/-- Function `strings.HasPrefix`. -/
def HasPrefix (s pre : GoString) : Bool := pre.isPrefixOf s

/-- Function `strings.TrimPrefix`: `if HasPrefix(s, prefix) { return s[len(prefix):] }; return s`. -/
def TrimPrefix (s pre : GoString) : GoString :=
  if HasPrefix s pre then s.drop pre.length else s

/-- Function `filepath.IsAbs` on Unix: `strings.HasPrefix(path, "/")`. -/
def IsAbs (path : GoString) : Bool := HasPrefix path [Separator]

/-- Inner loop of the `..` case of `Clean`, entered after the first `out.w--`:
`for out.w > dotdot && !os.IsPathSeparator(out.index(out.w)) { out.w-- }`.
The buffer is kept newest byte first, `popped` is the byte `out.index(out.w)`,
that is the byte removed last. -/
def backtrackLoop (dotdot : Nat) : Char → List Char → List Char
  | _, [] => []
  | popped, c :: b =>
    if dotdot < (c :: b).length ∧ IsPathSeparator popped = false then backtrackLoop dotdot c b
    else c :: b

/-- The `can backtrack` branch of `Clean`: `out.w--` followed by `backtrackLoop`. -/
def backtrack (dotdot : Nat) : List Char → List Char
  | [] => []
  | c :: b => backtrackLoop dotdot c b

/-- Main loop `for r < n { switch { ... } }` of `filepath.Clean`.
`path` is the unread rest `path[r:]`, `out` the written bytes `buf[:w]` newest first
(so `out.w` is `out.length`), `dotdot` the index where `..` must stop.  Every
iteration consumes at least one byte, so `fuel = len(path)` iterations suffice. -/
def cleanLoop (rooted : Bool) : Nat → List Char → List Char → Nat → List Char
  | 0, _, out, _ => out
  | fuel + 1, path, out, dotdot =>
    match path with
    | [] => out
    | c :: rest =>
      if IsPathSeparator c then
        -- empty path element
        cleanLoop rooted fuel rest out dotdot
      else if c = '.' ∧ (rest = [] ∨ (rest.head?.map IsPathSeparator) = some true) then
        -- . element
        cleanLoop rooted fuel rest out dotdot
      else if c = '.' ∧ rest.head? = some '.' ∧
          (rest.tail = [] ∨ (rest.tail.head?.map IsPathSeparator) = some true) then
        -- .. element: remove to last separator
        if dotdot < out.length then
          cleanLoop rooted fuel rest.tail (backtrack dotdot out) dotdot
        else if rooted = false then
          let out1 := if 0 < out.length then Separator :: out else out
          let out2 := '.' :: '.' :: out1
          cleanLoop rooted fuel rest.tail out2 out2.length
        else
          cleanLoop rooted fuel rest.tail out dotdot
      else
        -- real path element: add slash if needed, copy element
        let out1 :=
          if (rooted ∧ out.length ≠ 1) ∨ (rooted = false ∧ out.length ≠ 0) then Separator :: out
          else out
        let elem := (c :: rest).takeWhile (fun x => !IsPathSeparator x)
        cleanLoop rooted fuel ((c :: rest).dropWhile (fun x => !IsPathSeparator x))
          (elem.reverse ++ out1) dotdot

/-- Function `filepath.Clean` (Unix, so the volume name is empty). -/
def Clean (path : GoString) : GoString :=
  match path with
  | [] => ['.']
  | c :: _ =>
    let rooted := IsPathSeparator c
    let out :=
      if rooted then cleanLoop rooted path.length path.tail [Separator] 1
      else cleanLoop rooted path.length path [] 0
    if out.length = 0 then ['.'] else out.reverse

/-- Function `filepath.Base` (Unix). -/
def Base (path : GoString) : GoString :=
  if path = [] then ['.']
  else
    -- strip trailing slashes
    let p := path.rdropWhile IsPathSeparator
    -- find the last element
    let e := p.rtakeWhile (fun x => !IsPathSeparator x)
    -- if empty now, it had only slashes
    if e = [] then [Separator] else e

/-- Function `filepath.Join` (Unix): the elements from the first non-empty one on are
joined with the separator and cleaned; the empty string if all are empty. -/
def Join (elem : List GoString) : GoString :=
  match elem.dropWhile (fun e => e.isEmpty) with
  | [] => []
  | es => Clean ([Separator].intercalate es)

/-! ## Errors, contexts and Go maps -/

/-- Go `error` values that occur in `archiver.go`.  The first three come from the
collaborators; the others are the `fmt.Errorf` values built by the code, which keep
their cause when the format uses `%w`. -/
inductive Err where
  /-- the error `syscall.ENOENT`, for which `os.IsNotExist` holds -/
  | enoent : Err
  /-- the error `context.Canceled` -/
  | canceled : Err
  /-- every other error of the operating system or of the `archives` library -/
  | other : Nat → Err
  /-- "directory '%s' does not exist, cannot proceed with archival" -/
  | dirMissing : GoString → Err
  /-- "error mapping files from directory '%s': %w" -/
  | mapping : GoString → Err → Err
  /-- "failed to remove existing output file '%s': %w" -/
  | removeOutput : GoString → Err → Err
  /-- "error creating output file '%s': %w" -/
  | createOutput : GoString → Err → Err
  /-- "error during archive creation for output file '%s': %w" -/
  | archiveCreation : GoString → Err → Err
  deriving DecidableEq, Repr

/-- Test `errors.Is(err, context.Canceled)`: follows the `%w` chain. -/
def Err.isCanceled : Err → Bool
  | .canceled => true
  | .mapping _ e => e.isCanceled
  | .removeOutput _ e => e.isCanceled
  | .createOutput _ e => e.isCanceled
  | .archiveCreation _ e => e.isCanceled
  | _ => false

/-- Function `os.IsNotExist` applied to the error result of a system call
(`none` is the `nil` error). -/
def IsNotExist : Option Err → Bool
  | some .enoent => true
  | _ => false

/-- A `context.Context`, reduced to what `ctx.Err()` returns. -/
structure Context where
  /-- result of `ctx.Err()`: `none` while the context is live -/
  err : Option Err
  deriving DecidableEq, Repr

/-- A Go `map[string]V` as a list of pairs with distinct keys; the order of the
list has no meaning. -/
abbrev GoMap (V : Type) := List (GoString × V)

/-- Index expression `m[k]` of a map whose values are interfaces: `none` is the `nil`
zero value that Go yields for a key that is not in the map. -/
def GoMap.index {V : Type} (m : GoMap V) (k : GoString) : Option V := m.lookup k

/-- Assignment `m[k] = v`: replaces the value of an existing key, otherwise adds a pair. -/
def GoMap.set {V : Type} : GoMap V → GoString → V → GoMap V
  | [], k, v => [(k, v)]
  | (k', v') :: m, k, v => if k' = k then (k, v) :: m else (k', v') :: GoMap.set m k v

/-! ## The format registry -/

/-- The compression formats of the `archives` library named in `CompressionMap`. -/
inductive Compression where
  | Gz | Bz2 | Xz | Zstd | Lz4 | Brotli | Lzip | Sz | Zlib
  deriving DecidableEq, Repr

/-- The archival formats of the `archives` library named in `ArchivalMap`. -/
inductive Archival where
  | Tar | Zip
  deriving DecidableEq, Repr

/-- The map `CompressionMap`. -/
def CompressionMap : GoMap Compression :=
  [ ("gz".toList, .Gz), ("bz2".toList, .Bz2), ("xz".toList, .Xz), ("zst".toList, .Zstd),
    ("lz4".toList, .Lz4), ("br".toList, .Brotli), ("lz".toList, .Lzip), ("sz".toList, .Sz),
    ("zz".toList, .Zlib) ]

/-- The map `ArchivalMap`. -/
def ArchivalMap : GoMap Archival :=
  [ ("tar".toList, .Tar), ("zip".toList, .Zip) ]

/-- The compression identifiers of the spec. -/
def compressionIDs : List GoString :=
  ["gz".toList, "bz2".toList, "xz".toList, "zst".toList, "lz4".toList, "br".toList,
    "lz".toList, "sz".toList, "zz".toList]

/-- The archival identifiers of the spec. -/
def archivalIDs : List GoString := ["tar".toList, "zip".toList]

/-! ## Collaborators -/

/-- An `archives.FileInfo`: the name of the entry inside the archive and the path
on disk its `Open` function reads. -/
structure FileInfo where
  NameInArchive : GoString
  onDisk : GoString
  deriving DecidableEq, Repr

/-- The operating system and the `archives` library, over a filesystem state `FS`.
An open `*os.File` is identified with the path it was created at. -/
structure Sys (FS : Type) where
  /-- error result of `os.Stat` -/
  Stat : FS → GoString → Option Err
  /-- result of `os.Getwd` -/
  Getwd : FS → Except Err GoString
  /-- function `archives.FilesFromDisk(ctx, nil, filenames)`; it only reads the disk -/
  FilesFromDisk : Context → FS → GoMap GoString → Except Err (List FileInfo)
  /-- function `os.RemoveAll` -/
  RemoveAll : FS → GoString → FS × Option Err
  /-- function `os.Create` -/
  Create : FS → GoString → FS × Option Err
  /-- method `Close` of the output file -/
  Close : FS → GoString → FS
  /-- method `archives.CompressedArchive{Compression, Archival}.Archive(ctx, outf, files)` -/
  ArchiveTo : Option Compression → Option Archival → Context → FS → GoString →
    List FileInfo → FS × Option Err

/-- Modelled from the spec: the function `logging` is declared in another file of the
package; the spec describes it as a side channel for trace messages that never
affects control flow or error outcomes, so it leaves the filesystem state as it is. -/
def logging {FS : Type} (fs : FS) : FS := fs

/-! ## `archiver.go` -/

/-- Function `isExist`: check if a path exists. -/
def isExist {FS : Type} (sys : Sys FS) (fs : FS) (path : GoString) : Bool :=
  !IsNotExist (sys.Stat fs path)

/-- Function `filepath.Abs` (Unix): a rooted path is cleaned, any other path is joined
to the working directory; the error of `os.Getwd` is passed on. -/
def Abs (getwd : Except Err GoString) (path : GoString) : Except Err GoString :=
  if IsAbs path then .ok (Clean path)
  else
    match getwd with
    | .error e => .error e
    | .ok wd => .ok (Join [wd, path])

/-- The value `archiveDirName` that `makeDirMap` computes for `dir`. -/
def archiveDirName (dir : GoString) : GoString :=
  if dir = ['.'] then [] else Base (Clean dir)

/-- Function `makeDirMap`. -/
def makeDirMap {FS : Type} (sys : Sys FS) (ctx : Context) (fs : FS) (dir : GoString) :
    Except Err (List FileInfo) :=
  sys.FilesFromDisk ctx fs [(dir, archiveDirName dir)]

/-- The loop `for _, file := range files` of `MakeFilesMap`; `trimDir` already carries
its trailing separator. -/
def mappedLoop (getwd : Except Err GoString) (trimDir : GoString) :
    List GoString → GoMap GoString → Except Err (GoMap GoString)
  | [], mapped => .ok mapped
  | file :: files, mapped =>
    match Abs getwd file with
    | .error e => .error e
    | .ok file => mappedLoop getwd trimDir files (mapped.set file (TrimPrefix file trimDir))

/-- The map `mapped` that `MakeFilesMap` hands to `archives.FilesFromDisk`. -/
def mapped (getwd : Except Err GoString) (files : List GoString) (trimDir : GoString) :
    Except Err (GoMap GoString) :=
  match Abs getwd trimDir with
  | .error e => .error e
  | .ok trimDir => mappedLoop getwd (trimDir ++ [Separator]) files []

/-- Function `MakeFilesMap`. -/
def MakeFilesMap {FS : Type} (sys : Sys FS) (ctx : Context) (fs : FS) (files : List GoString)
    (trimDir : GoString) : Except Err (List FileInfo) :=
  match mapped (sys.Getwd fs) files trimDir with
  | .error e => .error e
  | .ok m => sys.FilesFromDisk ctx fs m

/-- Function `ArchiveFiles`; the result is the filesystem it leaves and the error it returns. -/
def ArchiveFiles {FS : Type} (sys : Sys FS) (ctx : Context) (fs : FS) (files : List FileInfo)
    (outfile : GoString) (compression : Option Compression) (archival : Option Archival) :
    FS × Option Err :=
  -- remove outfile
  match sys.RemoveAll (logging fs) outfile with
  | (fs1, some e) => (fs1, some (.removeOutput outfile e))
  | (fs1, none) =>
    -- create the output file we'll write to
    match sys.Create (logging fs1) outfile with
    | (fs2, some e) => (fs2, some (.createOutput outfile e))
    | (fs2, none) =>
      -- create the archive; the deferred function closes the output file on both paths
      match sys.ArchiveTo compression archival ctx (logging (logging fs2)) outfile files with
      | (fs3, some e) => (sys.Close (logging fs3) outfile, some (.archiveCreation outfile e))
      | (fs3, none) => (sys.Close (logging (logging fs3)) outfile, none)

/-- Function `Archive`; the result is the filesystem it leaves and the error it returns. -/
def Archive {FS : Type} (sys : Sys FS) (ctx : Context) (fs : FS) (dir outfile : GoString)
    (compression : Option Compression) (archival : Option Archival) : FS × Option Err :=
  if isExist sys (logging fs) dir = false then
    (logging fs, some (.dirMissing dir))
  else
    -- map files on disk to their paths in the archive
    match makeDirMap sys ctx (logging (logging fs)) dir with
    | .error e => (logging (logging fs), some (.mapping dir e))
    | .ok files =>
      ArchiveFiles sys ctx (logging (logging (logging fs))) files outfile compression archival

/-! ## A model world

A small instance of `Sys`, used to evaluate the code on concrete filesystems: simple
stand-ins for the operating system and the `archives` library, which are not code of
the package. -/

/-- A filesystem that holds regular files only: path and content. -/
abbrev ToyFS := GoMap GoString

/-- Path `p` is `dir` itself or lies below it. -/
def under (dir p : GoString) : Bool := p == dir || (dir ++ [Separator]).isPrefixOf p

/-- Stand-in for `os.Stat`: a path exists when it is a file or has a file below it. -/
def toyStat (fs : ToyFS) (p : GoString) : Option Err :=
  if fs.any (fun e => under p e.1) then none else some .enoent

/-- Stand-in for `archives.FilesFromDisk`: lists the files below every root of
`filenames`, named by the root's archive name followed by the path relative to the
root; reports the context's error if it has one. -/
def toyFilesFromDisk (ctx : Context) (fs : ToyFS) (filenames : GoMap GoString) :
    Except Err (List FileInfo) :=
  match ctx.err with
  | some e => .error e
  | none =>
    .ok (filenames.flatMap (fun rn =>
      (fs.filter (fun e => under rn.1 e.1)).map
        (fun e => { NameInArchive := rn.2 ++ e.1.drop rn.1.length, onDisk := e.1 })))

/-- Stand-in for `os.RemoveAll`: removes the path and everything below it. -/
def toyRemoveAll (fs : ToyFS) (p : GoString) : ToyFS × Option Err :=
  (fs.filter (fun e => !under p e.1), none)

/-- Stand-in for `os.Create`: creates or truncates the file. -/
def toyCreate (fs : ToyFS) (p : GoString) : ToyFS × Option Err :=
  (GoMap.set fs p [], none)

/-- Stand-in for `CompressedArchive.Archive`: writes every entry as `name=content;`,
reading each file when its turn comes; reports the context's error if it has one. -/
def toyArchiveTo (_ : Option Compression) (_ : Option Archival) (ctx : Context) (fs : ToyFS)
    (outf : GoString) (files : List FileInfo) : ToyFS × Option Err :=
  match ctx.err with
  | some e => (fs, some e)
  | none =>
    (GoMap.set fs outf (files.flatMap (fun fi =>
      fi.NameInArchive ++ '=' :: ((GoMap.index fs fi.onDisk).getD [] ++ [';']))), none)

/-- The model world. -/
def toySys : Sys ToyFS where
  Stat := toyStat
  Getwd := fun _ => .ok [Separator]
  FilesFromDisk := toyFilesFromDisk
  RemoveAll := toyRemoveAll
  Create := toyCreate
  Close := fun fs _ => fs
  ArchiveTo := toyArchiveTo

/-- A context that is live. -/
def liveCtx : Context := { err := none }

/-- A context that is already cancelled. -/
def cancelledCtx : Context := { err := some .canceled }

/-! ## Vocabulary of the statements -/

/-- The segments of a path: the pieces between separators (`"/a//b"` has the
segments `""`, `"a"`, `""`, `"b"`). -/
def segments : GoString → List GoString
  | [] => [[]]
  | c :: cs =>
    if IsPathSeparator c then [] :: segments cs
    else
      match segments cs with
      | [] => [[c]]
      | s :: ss => (c :: s) :: ss

/-- The segment `..`. -/
def dotdotElem : GoString := ['.', '.']

/-- A path component: not empty and without a separator. -/
def Comp (c : GoString) : Prop := c ≠ [] ∧ ∀ x ∈ c, IsPathSeparator x = false

/-- A path has a leading separator. -/
def LeadingSep (s : GoString) : Prop := ∃ rest, s = Separator :: rest

/-- A path has a `..` segment. -/
def HasDotDot (s : GoString) : Prop := dotdotElem ∈ segments s

/-- Buffer contents of `Clean`, newest byte first: the components `cs` (newest first)
with one separator between neighbours. -/
def joinRev : List GoString → List Char
  | [] => []
  | [c] => c.reverse
  | c :: c' :: cs => c.reverse ++ Separator :: joinRev (c' :: cs)

instance (s : GoString) : Decidable (LeadingSep s) :=
  match s with
  | [] => isFalse (by rintro ⟨r, h⟩; cases h)
  | c :: rest =>
    if h : c = Separator then isTrue ⟨rest, by rw [h]⟩
    else isFalse (by rintro ⟨r, h2⟩; cases h2; exact h rfl)

instance (s : GoString) : Decidable (HasDotDot s) := by
  unfold HasDotDot; infer_instance

instance (c : GoString) : Decidable (Comp c) := by
  unfold Comp; infer_instance

/-- Buffer invariant of `Clean` on a rooted path: the leading separator followed by
components none of which is `..`. -/
def RootedBuf (out : List Char) : Prop :=
  ∃ cs : List GoString, (∀ c ∈ cs, Comp c ∧ c ≠ dotdotElem) ∧ out = joinRev cs ++ [Separator]

/-- Buffer invariant of `Clean` on a path that is not rooted: components on top of
`k` protected `..` elements, `dotdot` being the length of the protected part. -/
def RelBuf (out : List Char) (dd : Nat) : Prop :=
  ∃ (cs : List GoString) (k : Nat), (∀ c ∈ cs, Comp c) ∧
    out = joinRev (cs ++ List.replicate k dotdotElem) ∧
    dd = (joinRev (List.replicate k dotdotElem)).length

/-- The working directory reported by `os.Getwd`, when there is one, is a rooted path. -/
def RootedWd (getwd : Except Err GoString) : Prop :=
  ∀ wd, getwd = .ok wd → IsAbs wd = true

instance (getwd : Except Err GoString) : Decidable (RootedWd getwd) :=
  match getwd with
  | .error _ => isTrue (by intro wd h; cases h)
  | .ok wd =>
    if h : IsAbs wd = true then isTrue (by intro w hw; cases hw; exact h)
    else isFalse (fun hh => h (hh wd rfl))

/-- The entries of `m` are the pairs `(k, TrimPrefix k t)` of cleaned rooted paths `k`
that are resolved members of `files`. -/
def MappedInv (getwd : Except Err GoString) (t : GoString) (files : List GoString)
    (m : GoMap GoString) : Prop :=
  (m.map Prod.fst).Nodup ∧
    ∀ p ∈ m, p.2 = TrimPrefix p.1 t ∧ ∃ f ∈ files, Abs getwd f = .ok p.1

/-! ## Lemmas on the buffer of `Clean` -/

theorem isPathSeparator_iff (c : Char) : IsPathSeparator c = true ↔ c = Separator := by
  simp [IsPathSeparator]

theorem isPathSeparator_sep : IsPathSeparator Separator = true := by
  simp [IsPathSeparator]

theorem joinRev_cons (e : GoString) (l : List GoString) :
    joinRev (e :: l) = e.reverse ++ (if l = [] then [] else Separator :: joinRev l) := by
  cases l with
  | nil => simp [joinRev]
  | cons c cs => simp [joinRev]

theorem joinRev_eq_nil {l : List GoString} (h : ∀ c ∈ l, Comp c) :
    joinRev l = [] ↔ l = [] := by
  constructor
  · intro hj
    cases l with
    | nil => rfl
    | cons c cs =>
      have hc := (h c (List.mem_cons_self _ _)).1
      rw [joinRev_cons] at hj
      simp at hj
      exact absurd hj.1 hc
  · rintro rfl; rfl

theorem joinRev_length_le (l prot : List GoString) :
    (joinRev prot).length ≤ (joinRev (l ++ prot)).length := by
  induction l with
  | nil => simp
  | cons c cs ih =>
    rw [List.cons_append, joinRev_cons]
    split
    · rename_i h
      have h1 : prot = [] := by
        cases cs <;> simp_all
      simp [h1, joinRev]
    · simp only [List.length_append, List.length_cons]
      omega

theorem joinRev_length_lt (c : GoString) (cs prot : List GoString) (hc : Comp c) :
    (joinRev prot).length < (joinRev (c :: cs ++ prot)).length := by
  have h := joinRev_length_le cs prot
  have hpos : 0 < c.length := List.length_pos.mpr hc.1
  rw [List.cons_append, joinRev_cons]
  split
  · rename_i h0
    have h1 : prot = [] := (List.append_eq_nil.mp h0).2
    simp [h1, joinRev]
    omega
  · simp only [List.length_append, List.length_cons, List.length_reverse]
    omega

theorem backtrackLoop_stop (dd : Nat) (l Y : List Char) (popped : Char)
    (hl : ∀ x ∈ l, IsPathSeparator x = false) (hp : IsPathSeparator popped = false)
    (hY : Y.length = dd) : backtrackLoop dd popped (l ++ Y) = Y := by
  induction l generalizing popped with
  | nil =>
    cases Y with
    | nil => rfl
    | cons y ys =>
      simp only [List.nil_append, backtrackLoop]
      rw [if_neg]
      intro h
      simp at hY
      simp at h
      omega
  | cons x xs ih =>
    simp only [List.cons_append, backtrackLoop]
    rw [if_pos]
    · exact ih x (fun y hy => hl y (List.mem_cons_of_mem _ hy)) (hl x (List.mem_cons_self _ _))
    · refine ⟨?_, hp⟩
      simp
      omega

theorem backtrackLoop_sep (dd : Nat) (l Y : List Char) (popped : Char)
    (hl : ∀ x ∈ l, IsPathSeparator x = false) (hp : IsPathSeparator popped = false)
    (hY : dd < (Separator :: Y).length) :
    backtrackLoop dd popped (l ++ Separator :: Y) = Y := by
  induction l generalizing popped with
  | nil =>
    simp only [List.nil_append, backtrackLoop]
    rw [if_pos ⟨hY, hp⟩]
    cases Y with
    | nil => rfl
    | cons y ys =>
      simp only [backtrackLoop]
      rw [if_neg]
      simp [isPathSeparator_sep]
  | cons x xs ih =>
    simp only [List.cons_append, backtrackLoop]
    rw [if_pos]
    · exact ih x (fun y hy => hl y (List.mem_cons_of_mem _ hy)) (hl x (List.mem_cons_self _ _))
    · refine ⟨?_, hp⟩
      simp at hY ⊢
      omega

theorem backtrack_stop (dd : Nat) (c : GoString) (Y : List Char) (hc : Comp c)
    (hY : Y.length = dd) : backtrack dd (c.reverse ++ Y) = Y := by
  obtain ⟨hne, hns⟩ := hc
  have hr : c.reverse ≠ [] := by simpa using hne
  obtain ⟨x, l, hxl⟩ := List.exists_cons_of_ne_nil hr
  have hmem : ∀ y ∈ x :: l, IsPathSeparator y = false := by
    intro y hy
    rw [← hxl] at hy
    exact hns y (List.mem_reverse.mp hy)
  rw [hxl]
  simp only [List.cons_append, backtrack]
  exact backtrackLoop_stop dd l Y x (fun y hy => hmem y (List.mem_cons_of_mem _ hy))
    (hmem x (List.mem_cons_self _ _)) hY

theorem backtrack_sep (dd : Nat) (c : GoString) (Y : List Char) (hc : Comp c)
    (hY : dd < (Separator :: Y).length) :
    backtrack dd (c.reverse ++ Separator :: Y) = Y := by
  obtain ⟨hne, hns⟩ := hc
  have hr : c.reverse ≠ [] := by simpa using hne
  obtain ⟨x, l, hxl⟩ := List.exists_cons_of_ne_nil hr
  have hmem : ∀ y ∈ x :: l, IsPathSeparator y = false := by
    intro y hy
    rw [← hxl] at hy
    exact hns y (List.mem_reverse.mp hy)
  rw [hxl]
  simp only [List.cons_append, backtrack]
  exact backtrackLoop_sep dd l Y x (fun y hy => hmem y (List.mem_cons_of_mem _ hy))
    (hmem x (List.mem_cons_self _ _)) hY

theorem comp_dotdotElem : Comp dotdotElem := by
  refine ⟨by simp [dotdotElem], ?_⟩
  intro x hx
  simp [dotdotElem] at hx
  subst hx
  decide

theorem elem_comp (c : Char) (rest : List Char) (hc : IsPathSeparator c = false) :
    Comp ((c :: rest).takeWhile (fun x => !IsPathSeparator x)) := by
  constructor
  · simp [List.takeWhile_cons, hc]
  · intro x hx
    have := List.mem_takeWhile_imp hx
    simpa using this

theorem elem_ne_dotdot (c : Char) (rest : List Char)
    (h3 : ¬(c = '.' ∧ rest.head? = some '.' ∧
          (rest.tail = [] ∨ (rest.tail.head?.map IsPathSeparator) = some true))) :
    (c :: rest).takeWhile (fun x => !IsPathSeparator x) ≠ dotdotElem := by
  intro h
  apply h3
  by_cases hc : IsPathSeparator c = true
  · simp [List.takeWhile_cons, hc, dotdotElem] at h
  · simp only [Bool.not_eq_true] at hc
    simp only [List.takeWhile_cons, hc, Bool.not_false, if_true, dotdotElem, List.cons.injEq] at h
    obtain ⟨h1, h2⟩ := h
    refine ⟨h1, ?_⟩
    cases rest with
    | nil => simp at h2
    | cons d rest' =>
      by_cases hd : IsPathSeparator d = true
      · simp [List.takeWhile_cons, hd] at h2
      · simp only [Bool.not_eq_true] at hd
        simp only [List.takeWhile_cons, hd, Bool.not_false, if_true, List.cons.injEq] at h2
        obtain ⟨h4, h5⟩ := h2
        refine ⟨by simp [h4], ?_⟩
        cases rest' with
        | nil => simp
        | cons e rest'' =>
          right
          by_cases he : IsPathSeparator e = true
          · simp [he]
          · simp only [Bool.not_eq_true] at he
            simp [List.takeWhile_cons, he] at h5

theorem rootedBuf_push (out : List Char) (e : GoString) (h : RootedBuf out) (he : Comp e)
    (hne : e ≠ dotdotElem) :
    RootedBuf (e.reverse ++ (if ((true = true) ∧ out.length ≠ 1) ∨ ((true = false) ∧ out.length ≠ 0)
      then Separator :: out else out)) := by
  obtain ⟨cs, hcs, rfl⟩ := h
  refine ⟨e :: cs, ?_, ?_⟩
  · intro c hc
    rcases List.mem_cons.mp hc with rfl | hc
    · exact ⟨he, hne⟩
    · exact hcs c hc
  · rw [joinRev_cons]
    have hj := joinRev_eq_nil (l := cs) (fun c hc => (hcs c hc).1)
    by_cases h0 : cs = []
    · subst h0
      simp [joinRev]
    · have : joinRev cs ≠ [] := fun hh => h0 (hj.mp hh)
      simp [h0, this]

theorem rootedBuf_backtrack (out : List Char) (h : RootedBuf out) (hlen : 1 < out.length) :
    RootedBuf (backtrack 1 out) := by
  obtain ⟨cs, hcs, rfl⟩ := h
  cases cs with
  | nil => simp [joinRev] at hlen
  | cons c cs =>
    have hc := (hcs c (List.mem_cons_self _ _)).1
    refine ⟨cs, fun d hd => hcs d (List.mem_cons_of_mem _ hd), ?_⟩
    rw [joinRev_cons]
    by_cases h0 : cs = []
    · subst h0
      simp only [if_true, List.append_nil, joinRev, List.nil_append]
      exact backtrack_stop 1 c [Separator] hc rfl
    · simp only [h0, if_false, List.append_assoc, List.cons_append]
      apply backtrack_sep 1 c _ hc
      simp

theorem cleanLoop_rooted (fuel : Nat) (path out : List Char) (h : RootedBuf out) :
    RootedBuf (cleanLoop true fuel path out 1) := by
  induction fuel generalizing path out with
  | zero => simpa [cleanLoop] using h
  | succ n ih =>
    cases path with
    | nil => simpa [cleanLoop] using h
    | cons c rest =>
      rw [cleanLoop]
      by_cases h1 : IsPathSeparator c = true
      · rw [if_pos h1]; exact ih _ _ h
      rw [if_neg h1]
      by_cases h2 : c = '.' ∧ (rest = [] ∨ (rest.head?.map IsPathSeparator) = some true)
      · rw [if_pos h2]; exact ih _ _ h
      rw [if_neg h2]
      by_cases h3 : c = '.' ∧ rest.head? = some '.' ∧
          (rest.tail = [] ∨ (rest.tail.head?.map IsPathSeparator) = some true)
      · rw [if_pos h3]
        by_cases h4 : 1 < out.length
        · rw [if_pos h4]; exact ih _ _ (rootedBuf_backtrack out h h4)
        · rw [if_neg h4, if_neg (by simp)]; exact ih _ _ h
      rw [if_neg h3]
      apply ih
      have hc : IsPathSeparator c = false := by simpa using h1
      exact rootedBuf_push out _ h (elem_comp c rest hc) (elem_ne_dotdot c rest h3)

theorem relBuf_allComp {cs : List GoString} {k : Nat} (hcs : ∀ c ∈ cs, Comp c) :
    ∀ c ∈ cs ++ List.replicate k dotdotElem, Comp c := by
  intro c hc
  rcases List.mem_append.mp hc with h | h
  · exact hcs c h
  · rw [(List.mem_replicate.mp h).2]; exact comp_dotdotElem

theorem relBuf_push (out : List Char) (dd : Nat) (e : GoString) (h : RelBuf out dd)
    (he : Comp e) :
    RelBuf (e.reverse ++ (if out.length ≠ 0 then Separator :: out else out)) dd := by
  obtain ⟨cs, k, hcs, rfl, rfl⟩ := h
  refine ⟨e :: cs, k, ?_, ?_, rfl⟩
  · intro c hc
    rcases List.mem_cons.mp hc with rfl | hc
    · exact he
    · exact hcs c hc
  · rw [List.cons_append, joinRev_cons]
    have hj := joinRev_eq_nil (relBuf_allComp (k := k) hcs)
    by_cases h0 : cs ++ List.replicate k dotdotElem = []
    · rw [h0]; simp [joinRev]
    · have : joinRev (cs ++ List.replicate k dotdotElem) ≠ [] := fun hh => h0 (hj.mp hh)
      simp [h0, this]

theorem relBuf_backtrack (out : List Char) (dd : Nat) (h : RelBuf out dd)
    (hlen : dd < out.length) : RelBuf (backtrack dd out) dd := by
  obtain ⟨cs, k, hcs, rfl, rfl⟩ := h
  cases cs with
  | nil => simp at hlen
  | cons c cs =>
    have hc := hcs c (List.mem_cons_self _ _)
    refine ⟨cs, k, fun d hd => hcs d (List.mem_cons_of_mem _ hd), ?_, rfl⟩
    rw [List.cons_append, joinRev_cons]
    by_cases h0 : cs ++ List.replicate k dotdotElem = []
    · have h1 : List.replicate k dotdotElem = [] := (List.append_eq_nil.mp h0).2
      rw [if_pos h0, h0, h1]
      simpa [joinRev] using backtrack_stop 0 c [] hc rfl
    · rw [if_neg h0]
      apply backtrack_sep _ c _ hc
      have := joinRev_length_le cs (List.replicate k dotdotElem)
      simp only [List.length_cons]
      omega

theorem relBuf_dotdot (out : List Char) (dd : Nat) (h : RelBuf out dd)
    (hlen : ¬ dd < out.length) :
    RelBuf ('.' :: '.' :: (if 0 < out.length then Separator :: out else out))
      ('.' :: '.' :: (if 0 < out.length then Separator :: out else out)).length := by
  obtain ⟨cs, k, hcs, rfl, rfl⟩ := h
  cases cs with
  | cons c cs =>
    exact absurd (joinRev_length_lt c cs _ (hcs c (List.mem_cons_self _ _))) hlen
  | nil =>
    have hj := joinRev_eq_nil (@relBuf_allComp [] k (by simp))
    have hout : ('.' :: '.' :: (if 0 < (joinRev ([] ++ List.replicate k dotdotElem)).length
        then Separator :: joinRev ([] ++ List.replicate k dotdotElem)
        else joinRev ([] ++ List.replicate k dotdotElem)))
        = joinRev (List.replicate (k + 1) dotdotElem) := by
      rw [List.replicate_succ, joinRev_cons]
      simp only [List.nil_append] at hj ⊢
      by_cases h0 : List.replicate k dotdotElem = []
      · rw [h0]; simp [joinRev, dotdotElem]
      · have : joinRev (List.replicate k dotdotElem) ≠ [] := fun hh => h0 (hj.mp hh)
        have hpos : 0 < (joinRev (List.replicate k dotdotElem)).length :=
          List.length_pos.mpr this
        rw [if_pos hpos, if_neg h0]
        rfl
    rw [hout]
    exact ⟨[], k + 1, by simp, by simp, rfl⟩

theorem cleanLoop_rel (fuel : Nat) (path out : List Char) (dd : Nat) (h : RelBuf out dd) :
    ∃ dd', RelBuf (cleanLoop false fuel path out dd) dd' := by
  induction fuel generalizing path out dd with
  | zero => exact ⟨dd, by simpa [cleanLoop] using h⟩
  | succ n ih =>
    cases path with
    | nil => exact ⟨dd, by simpa [cleanLoop] using h⟩
    | cons c rest =>
      rw [cleanLoop]
      by_cases h1 : IsPathSeparator c = true
      · rw [if_pos h1]; exact ih _ _ _ h
      rw [if_neg h1]
      by_cases h2 : c = '.' ∧ (rest = [] ∨ (rest.head?.map IsPathSeparator) = some true)
      · rw [if_pos h2]; exact ih _ _ _ h
      rw [if_neg h2]
      by_cases h3 : c = '.' ∧ rest.head? = some '.' ∧
          (rest.tail = [] ∨ (rest.tail.head?.map IsPathSeparator) = some true)
      · rw [if_pos h3]
        by_cases h4 : dd < out.length
        · rw [if_pos h4]; exact ih _ _ _ (relBuf_backtrack out dd h h4)
        · rw [if_neg h4, if_pos rfl]; exact ih _ _ _ (relBuf_dotdot out dd h h4)
      rw [if_neg h3]
      apply ih
      have hc : IsPathSeparator c = false := by simpa using h1
      simpa using relBuf_push out dd _ h (elem_comp c rest hc)

/-! ## The fuel of `cleanLoop` -/

theorem cleanLoop_nil (rooted : Bool) (fuel : Nat) (out : List Char) (dd : Nat) :
    cleanLoop rooted fuel [] out dd = out := by
  cases fuel <;> rfl

theorem dropWhile_length_le (p : Char → Bool) (l : List Char) :
    (l.dropWhile p).length ≤ l.length :=
  (List.dropWhile_suffix p).length_le

/-- The loop of `Clean` runs to the end of the path: `len(path)` iterations are enough,
and any larger number gives the same buffer. -/
theorem cleanLoop_fuel (rooted : Bool) (fuel fuel' : Nat) (path out : List Char) (dd : Nat)
    (h : path.length ≤ fuel) (h' : path.length ≤ fuel') :
    cleanLoop rooted fuel path out dd = cleanLoop rooted fuel' path out dd := by
  induction fuel generalizing fuel' path out dd with
  | zero =>
    have : path = [] := List.length_eq_zero.mp (Nat.le_zero.mp h)
    subst this
    rw [cleanLoop_nil, cleanLoop_nil]
  | succ n ih =>
    cases path with
    | nil => rw [cleanLoop_nil, cleanLoop_nil]
    | cons c rest =>
      cases fuel' with
      | zero => simp at h'
      | succ n' =>
        simp only [List.length_cons, Nat.add_le_add_iff_right] at h h'
        have ht : rest.tail.length ≤ rest.length := by simp
        rw [cleanLoop, cleanLoop]
        by_cases h1 : IsPathSeparator c = true
        · rw [if_pos h1, if_pos h1]; exact ih _ _ _ _ h h'
        rw [if_neg h1, if_neg h1]
        by_cases h2 : c = '.' ∧ (rest = [] ∨ (rest.head?.map IsPathSeparator) = some true)
        · rw [if_pos h2, if_pos h2]; exact ih _ _ _ _ h h'
        rw [if_neg h2, if_neg h2]
        by_cases h3 : c = '.' ∧ rest.head? = some '.' ∧
            (rest.tail = [] ∨ (rest.tail.head?.map IsPathSeparator) = some true)
        · rw [if_pos h3, if_pos h3]
          by_cases h4 : dd < out.length
          · rw [if_pos h4, if_pos h4]; exact ih _ _ _ _ (by omega) (by omega)
          · rw [if_neg h4, if_neg h4]
            by_cases h5 : rooted = false
            · rw [if_pos h5, if_pos h5]; exact ih _ _ _ _ (by omega) (by omega)
            · rw [if_neg h5, if_neg h5]; exact ih _ _ _ _ (by omega) (by omega)
        rw [if_neg h3, if_neg h3]
        have hd : ((c :: rest).dropWhile (fun x => !IsPathSeparator x)).length ≤ rest.length := by
          rw [List.dropWhile_cons_of_pos (by simpa using h1)]
          exact dropWhile_length_le _ rest
        exact ih _ _ _ _ (by omega) (by omega)

/-! ## Segments -/

theorem segments_ne_nil (s : GoString) : segments s ≠ [] := by
  cases s with
  | nil => simp [segments]
  | cons c cs =>
    rw [segments]
    split
    · simp
    · split <;> simp

theorem segments_append_sep (a b : GoString) :
    segments (a ++ Separator :: b) = segments a ++ segments b := by
  induction a with
  | nil => simp [segments, isPathSeparator_sep]
  | cons x a ih =>
    rw [List.cons_append, segments, segments, ih]
    by_cases hx : IsPathSeparator x = true
    · simp [hx]
    · simp only [hx, if_false]
      obtain ⟨s, ss, hs⟩ := List.exists_cons_of_ne_nil (segments_ne_nil a)
      rw [hs]
      simp

theorem segments_comp (c : GoString) (h : ∀ x ∈ c, IsPathSeparator x = false) :
    segments c = [c] := by
  induction c with
  | nil => rfl
  | cons x c ih =>
    rw [segments, if_neg (by simp [h x (List.mem_cons_self _ _)]),
      ih (fun y hy => h y (List.mem_cons_of_mem _ hy))]

theorem segments_joinRev (l : List GoString) (hne : l ≠ []) (h : ∀ c ∈ l, Comp c) :
    segments (joinRev l).reverse = l.reverse := by
  induction l with
  | nil => exact absurd rfl hne
  | cons c cs ih =>
    have hc := h c (List.mem_cons_self _ _)
    rw [joinRev_cons]
    by_cases h0 : cs = []
    · subst h0
      simp [segments_comp c hc.2]
    · rw [if_neg h0, List.reverse_append, List.reverse_cons, List.append_assoc,
        List.singleton_append, List.reverse_reverse, segments_append_sep,
        ih h0 (fun d hd => h d (List.mem_cons_of_mem _ hd)), segments_comp c hc.2]
      simp

/-! ## The shape of a cleaned path -/

theorem isAbs_cons (p : GoString) (h : IsAbs p = true) : ∃ rest, p = Separator :: rest := by
  cases p with
  | nil => simp [IsAbs, HasPrefix, List.isPrefixOf] at h
  | cons c rest =>
    simp [IsAbs, HasPrefix, List.isPrefixOf] at h
    exact ⟨rest, by rw [h]⟩

theorem isAbs_false_cons (c : Char) (rest : List Char) (h : IsAbs (c :: rest) = false) :
    IsPathSeparator c = false := by
  simp [IsAbs, HasPrefix, List.isPrefixOf] at h
  simp only [IsPathSeparator, beq_eq_false_iff_ne, ne_eq]
  exact fun hh => h hh.symm

/-- A cleaned rooted path is the separator followed by components, none of them `..`,
with single separators between them. -/
theorem Clean_rooted (p : GoString) (h : IsAbs p = true) :
    ∃ cs : List GoString, (∀ c ∈ cs, Comp c ∧ c ≠ dotdotElem) ∧
      Clean p = Separator :: (joinRev cs).reverse := by
  obtain ⟨rest, rfl⟩ := isAbs_cons p h
  have hinit : RootedBuf [Separator] := ⟨[], by simp, by simp [joinRev]⟩
  obtain ⟨cs, hcs, hout⟩ := cleanLoop_rooted (Separator :: rest).length rest [Separator] hinit
  refine ⟨cs, hcs, ?_⟩
  simp only [Clean, isPathSeparator_sep, if_true, List.tail_cons]
  rw [hout]
  simp

/-- A cleaned path that is not rooted is `.` or components with single separators
between them. -/
theorem Clean_rel (p : GoString) (h : IsAbs p = false) :
    Clean p = ['.'] ∨ ∃ cs : List GoString, cs ≠ [] ∧ (∀ c ∈ cs, Comp c) ∧
      Clean p = (joinRev cs).reverse := by
  cases p with
  | nil => left; rfl
  | cons c rest =>
    have hc := isAbs_false_cons c rest h
    have hinit : RelBuf [] 0 := ⟨[], 0, by simp, by simp [joinRev], by simp [joinRev]⟩
    obtain ⟨dd, cs, k, hcs, hout, -⟩ := cleanLoop_rel (c :: rest).length (c :: rest) [] 0 hinit
    simp only [Clean, hc, Bool.false_eq_true, if_false]
    rw [hout]
    by_cases h0 : cs ++ List.replicate k dotdotElem = []
    · left; rw [h0]; simp [joinRev]
    · right
      have hj := joinRev_eq_nil (relBuf_allComp (k := k) hcs)
      have : joinRev (cs ++ List.replicate k dotdotElem) ≠ [] := fun hh => h0 (hj.mp hh)
      refine ⟨_, h0, relBuf_allComp hcs, ?_⟩
      simp [this]

theorem Clean_ne_nil (p : GoString) : Clean p ≠ [] := by
  cases hp : IsAbs p with
  | true =>
    obtain ⟨cs, -, h⟩ := Clean_rooted p hp
    rw [h]; simp
  | false =>
    rcases Clean_rel p hp with h | ⟨cs, hne, hcs, h⟩
    · rw [h]; simp
    · rw [h]
      intro hh
      have := (joinRev_eq_nil hcs).mp (by simpa using hh)
      exact hne this

/-- A cleaned path is the root or ends in a byte that is not a separator. -/
theorem Clean_last (p : GoString) :
    Clean p = [Separator] ∨
      ∃ (init : GoString) (x : Char), Clean p = init ++ [x] ∧ IsPathSeparator x = false := by
  have key : ∀ cs : List GoString, cs ≠ [] → (∀ c ∈ cs, Comp c) →
      ∃ (init : GoString) (x : Char), (joinRev cs).reverse = init ++ [x] ∧
        IsPathSeparator x = false := by
    intro cs hne hcs
    obtain ⟨c, cs', rfl⟩ := List.exists_cons_of_ne_nil hne
    obtain ⟨hcne, hcns⟩ := hcs c (List.mem_cons_self _ _)
    have hl := List.dropLast_append_getLast hcne
    refine ⟨(if cs' = [] then [] else Separator :: joinRev cs').reverse ++ c.dropLast,
      c.getLast hcne, ?_, hcns _ (List.getLast_mem hcne)⟩
    rw [joinRev_cons, List.reverse_append, List.reverse_reverse, List.append_assoc, hl]
  cases hp : IsAbs p with
  | true =>
    obtain ⟨cs, hcs, h⟩ := Clean_rooted p hp
    by_cases h0 : cs = []
    · left; rw [h, h0]; simp [joinRev]
    · right
      obtain ⟨init, x, h1, h2⟩ := key cs h0 (fun c hc => (hcs c hc).1)
      exact ⟨Separator :: init, x, by rw [h, h1]; simp, h2⟩
  | false =>
    rcases Clean_rel p hp with h | ⟨cs, hne, hcs, h⟩
    · right; exact ⟨[], '.', by rw [h]; simp, by decide⟩
    · right
      obtain ⟨init, x, h1, h2⟩ := key cs hne hcs
      exact ⟨init, x, by rw [h, h1], h2⟩

/-- The segments of a cleaned rooted path other than the root: the empty segment
before the leading separator, then components none of which is `..`. -/
theorem Clean_rooted_segments (p : GoString) (h : IsAbs p = true) :
    Clean p = [Separator] ∨
      ∃ comps : List GoString, (∀ c ∈ comps, Comp c ∧ c ≠ dotdotElem) ∧
        segments (Clean p) = [] :: comps := by
  obtain ⟨cs, hcs, hc⟩ := Clean_rooted p h
  by_cases h0 : cs = []
  · left; rw [hc, h0]; simp [joinRev]
  · right
    refine ⟨cs.reverse, fun c hc => hcs c (List.mem_reverse.mp hc), ?_⟩
    rw [hc, segments, if_pos isPathSeparator_sep,
      segments_joinRev cs h0 (fun c hc => (hcs c hc).1)]

/-- In a cleaned rooted path, what follows a separator that is not the leading one
is a relative path: not empty, no leading separator, no `..` segment. -/
theorem Clean_below (p t r : GoString) (h : IsAbs p = true) (ht : t ≠ [])
    (hf : Clean p = t ++ Separator :: r) :
    r ≠ [] ∧ ¬ LeadingSep r ∧ ¬ HasDotDot r := by
  rcases Clean_rooted_segments p h with h1 | ⟨comps, hcomps, hseg⟩
  · rw [h1] at hf
    cases t with
    | nil => exact absurd rfl ht
    | cons x t => cases t <;> simp at hf
  · rw [hf, segments_append_sep] at hseg
    obtain ⟨s, ss, hs⟩ := List.exists_cons_of_ne_nil (segments_ne_nil t)
    rw [hs, List.cons_append, List.cons.injEq] at hseg
    have hmem : ∀ c ∈ segments r, Comp c ∧ c ≠ dotdotElem := by
      intro c hc
      apply hcomps
      rw [← hseg.2]
      exact List.mem_append_right _ hc
    refine ⟨?_, ?_, ?_⟩
    · rintro rfl
      exact (hmem [] (by simp [segments])).1.1 rfl
    · rintro ⟨rest, rfl⟩
      exact (hmem [] (by simp [segments, isPathSeparator_sep])).1.1 rfl
    · intro hd
      exact (hmem _ hd).2 rfl

/-! ## `Base` on cleaned paths -/

theorem rdropWhile_append_rtakeWhile (p : Char → Bool) (l : List Char) :
    l.rdropWhile p ++ l.rtakeWhile p = l := by
  have h : (l.reverse.takeWhile p ++ l.reverse.dropWhile p).reverse = l := by
    rw [List.takeWhile_append_dropWhile, List.reverse_reverse]
  rw [List.reverse_append] at h
  exact h

/-- On a path that ends in a byte other than a separator, `Base` returns what follows the
last separator: a component, preceded by nothing or by a part ending in a separator. -/
theorem Base_of_last (init : GoString) (x : Char) (hx : IsPathSeparator x = false) :
    Comp (Base (init ++ [x])) ∧
      ∃ pre : GoString, init ++ [x] = pre ++ Base (init ++ [x]) ∧
        (pre = [] ∨ ∃ pre', pre = pre' ++ [Separator]) := by
  have hne : init ++ [x] ≠ [] := by simp
  have h1 : (init ++ [x]).rdropWhile IsPathSeparator = init ++ [x] :=
    List.rdropWhile_concat_neg _ _ _ (by simp [hx])
  have h2 : (init ++ [x]).rtakeWhile (fun y => !IsPathSeparator y)
      = init.rtakeWhile (fun y => !IsPathSeparator y) ++ [x] :=
    List.rtakeWhile_concat_pos _ _ _ (by simp [hx])
  have hB : Base (init ++ [x]) = (init ++ [x]).rtakeWhile (fun y => !IsPathSeparator y) := by
    unfold Base
    rw [if_neg hne]
    simp only [h1]
    rw [if_neg (by rw [h2]; simp)]
  refine ⟨⟨?_, ?_⟩, (init ++ [x]).rdropWhile (fun y => !IsPathSeparator y), ?_, ?_⟩
  · rw [hB, h2]; simp
  · intro y hy
    rw [hB] at hy
    simpa using List.mem_rtakeWhile_imp hy
  · rw [hB, rdropWhile_append_rtakeWhile]
  · by_cases h0 : (init ++ [x]).rdropWhile (fun y => !IsPathSeparator y) = []
    · left; exact h0
    · right
      have hl := List.rdropWhile_last_not (fun y => !IsPathSeparator y) (init ++ [x]) h0
      refine ⟨((init ++ [x]).rdropWhile (fun y => !IsPathSeparator y)).dropLast, ?_⟩
      have hs : ((init ++ [x]).rdropWhile (fun y => !IsPathSeparator y)).getLast h0
          = Separator := by
        simpa [IsPathSeparator] using hl
      rw [← hs]
      exact (List.dropLast_append_getLast h0).symm

/-- On a path that ends in a byte other than a separator, `Base` returns the last segment. -/
theorem Base_last_segment (init : GoString) (x : Char) (hx : IsPathSeparator x = false) :
    (segments (init ++ [x])).getLast? = some (Base (init ++ [x])) := by
  obtain ⟨hcomp, pre, hpre, hcase⟩ := Base_of_last init x hx
  have hseg := segments_comp _ hcomp.2
  rcases hcase with h0 | ⟨pre', h1⟩
  · rw [h0, List.nil_append] at hpre
    rw [← hpre] at hseg ⊢
    rw [hseg]
    rfl
  · rw [h1, List.append_assoc, List.singleton_append] at hpre
    rw [hpre, segments_append_sep, hseg, List.getLast?_concat, ← hpre]

/-! ## Claims on `makeDirMap` -/

/-- C2 (as stated, refuted): the input `"./"` denotes the current directory (its cleaned
form is `"."`), yet `makeDirMap` passes the archive directory name `"."` and not the
empty string; the same holds for `"./."` and for the empty path. -/
theorem archiveDirName_dot_slash :
    Clean "./".toList = ".".toList ∧ archiveDirName "./".toList = ".".toList ∧
    archiveDirName "./".toList ≠ [] ∧
    Clean "./.".toList = ".".toList ∧ archiveDirName "./.".toList = ".".toList ∧
    Clean [] = ".".toList ∧ archiveDirName [] = ".".toList := by
  decide

/-- C2 (amended): among the inputs whose cleaned form is `"."`, exactly the literal
path `"."` gets the empty archive directory name; every other one gets `"."`. -/
theorem archiveDirName_current (dir : GoString) (h : Clean dir = ".".toList) :
    archiveDirName dir = if dir = ".".toList then [] else ".".toList := by
  unfold archiveDirName
  by_cases hd : dir = ['.']
  · simp [hd]
  · have hd' : ¬ dir = ".".toList := hd
    rw [if_neg hd, if_neg hd', h]
    decide

/-- Instance of `archiveDirName_current` at the directory `./`. -/
theorem archiveDirName_current_witness :
    archiveDirName "./".toList = if "./".toList = ".".toList then [] else ".".toList :=
  archiveDirName_current "./".toList (by decide)

/-- C3 (as stated, refuted): the root directory does not denote the current directory,
but its archive directory name is `"/"`, which is a separator and not a component. -/
theorem archiveDirName_root :
    Clean "/".toList ≠ ".".toList ∧ archiveDirName "/".toList = [Separator] ∧
    Separator ∈ archiveDirName "/".toList ∧ ¬ Comp (archiveDirName "/".toList) := by
  refine ⟨by decide, by decide, by decide, ?_⟩
  intro h
  exact absurd (h.2 Separator (by decide)) (by decide)

/-- C3 (amended): for every directory whose cleaned path is neither `"."` nor the root
`"/"`, the archive directory name is the last component of the cleaned path: the
cleaned path ends with it, what precedes it is empty or ends in a separator, and it
is not empty and contains no separator. -/
theorem archiveDirName_last_component (dir : GoString) (hcur : Clean dir ≠ ".".toList)
    (hroot : Clean dir ≠ [Separator]) :
    Comp (archiveDirName dir) ∧
      ∃ pre : GoString, Clean dir = pre ++ archiveDirName dir ∧
        (pre = [] ∨ ∃ pre', pre = pre' ++ [Separator]) := by
  have hd : dir ≠ ['.'] := by
    rintro rfl
    exact hcur (by decide)
  have ha : archiveDirName dir = Base (Clean dir) := by
    unfold archiveDirName
    rw [if_neg hd]
  rcases Clean_last dir with h | ⟨init, x, h, hx⟩
  · exact absurd h hroot
  · rw [ha, h]
    exact Base_of_last init x hx

/-- Instance of `archiveDirName_last_component` at the directory `/x/y/project`. -/
theorem archiveDirName_last_component_witness :
    Comp (archiveDirName "/x/y/project".toList) ∧
      ∃ pre : GoString, Clean "/x/y/project".toList = pre ++ archiveDirName "/x/y/project".toList ∧
        (pre = [] ∨ ∃ pre', pre = pre' ++ [Separator]) :=
  archiveDirName_last_component "/x/y/project".toList (by decide) (by decide)

/-! ## `Abs`, `TrimPrefix` and the Go map -/

theorem Join_wd (wd path : GoString) (hwd : IsAbs wd = true) :
    Join [wd, path] = Clean (wd ++ Separator :: path) := by
  obtain ⟨rest, rfl⟩ := isAbs_cons wd hwd
  simp [Join, List.intercalate, List.intersperse]

/-- With a rooted working directory, `Abs` returns the cleaned form of a rooted path. -/
theorem Abs_rooted (getwd : Except Err GoString) (path k : GoString)
    (hwd : RootedWd getwd) (h : Abs getwd path = .ok k) :
    ∃ q, IsAbs q = true ∧ k = Clean q := by
  unfold Abs at h
  by_cases hp : IsAbs path = true
  · rw [if_pos hp] at h
    exact ⟨path, hp, by cases h; rfl⟩
  · rw [if_neg hp] at h
    cases hg : getwd with
    | error e => rw [hg] at h; cases h
    | ok wd =>
      rw [hg] at h
      have hw := hwd wd hg
      obtain ⟨rest, hrest⟩ := isAbs_cons wd hw
      refine ⟨wd ++ Separator :: path, ?_, ?_⟩
      · rw [hrest]; simp [IsAbs, HasPrefix, List.isPrefixOf]
      · simp only [Except.ok.injEq] at h
        rw [← h, Join_wd wd path hw]

theorem Abs_total (wd path : GoString) : ∃ k, Abs (.ok wd) path = .ok k := by
  unfold Abs
  split
  · exact ⟨_, rfl⟩
  · exact ⟨_, rfl⟩

theorem TrimPrefix_append (t r : GoString) : TrimPrefix (t ++ r) t = r := by
  simp [TrimPrefix, HasPrefix]

theorem TrimPrefix_cases (s t : GoString) :
    s = t ++ TrimPrefix s t ∨ TrimPrefix s t = s := by
  unfold TrimPrefix HasPrefix
  by_cases h : t.isPrefixOf s = true
  · left
    rw [if_pos h]
    obtain ⟨r, hr⟩ := List.isPrefixOf_iff_prefix.mp h
    rw [← hr]; simp
  · right
    rw [if_neg h]

/-- Stripping `trimDir + "/"` is injective on cleaned rooted paths. -/
theorem TrimPrefix_injective (t p1 p2 : GoString) (ht : t ≠ [])
    (h1 : IsAbs p1 = true) (h2 : IsAbs p2 = true)
    (h : TrimPrefix (Clean p1) (t ++ [Separator]) = TrimPrefix (Clean p2) (t ++ [Separator])) :
    Clean p1 = Clean p2 := by
  have key : ∀ a b : GoString, IsAbs a = true → IsAbs b = true →
      Clean a = (t ++ [Separator]) ++ TrimPrefix (Clean a) (t ++ [Separator]) →
      TrimPrefix (Clean b) (t ++ [Separator]) = Clean b →
      TrimPrefix (Clean a) (t ++ [Separator]) = TrimPrefix (Clean b) (t ++ [Separator]) →
      False := by
    intro a b ha hb hpa hpb hab
    rw [List.append_assoc, List.singleton_append] at hpa
    have hbelow := Clean_below a t _ ha ht hpa
    obtain ⟨cs, -, hcb⟩ := Clean_rooted b hb
    apply hbelow.2.1
    rw [hab, hpb, hcb]
    exact ⟨_, rfl⟩
  rcases TrimPrefix_cases (Clean p1) (t ++ [Separator]) with a1 | a1 <;>
    rcases TrimPrefix_cases (Clean p2) (t ++ [Separator]) with a2 | a2
  · rw [a1, a2, h]
  · exact (key p1 p2 h1 h2 a1 a2 h).elim
  · exact (key p2 p1 h2 h1 a2 a1 h.symm).elim
  · rw [← a1, ← a2, h]

theorem GoMap.set_keys {V : Type} (m : GoMap V) (k : GoString) (v : V) :
    (GoMap.set m k v).map Prod.fst
      = if k ∈ m.map Prod.fst then m.map Prod.fst else m.map Prod.fst ++ [k] := by
  induction m with
  | nil => simp [GoMap.set]
  | cons p m ih =>
    obtain ⟨k', v'⟩ := p
    unfold GoMap.set
    by_cases hk : k' = k
    · subst hk
      rw [if_pos rfl, List.map_cons, List.map_cons, if_pos (List.mem_cons_self _ _)]
    · rw [if_neg hk, List.map_cons, ih, List.map_cons]
      have hk2 : ¬ k = k' := fun h => hk h.symm
      by_cases hm : k ∈ m.map Prod.fst
      · rw [if_pos hm, if_pos (List.mem_cons_of_mem _ hm)]
      · rw [if_neg hm, if_neg, List.cons_append]
        intro hh
        rcases List.mem_cons.mp hh with hh | hh
        · exact hk2 hh
        · exact hm hh

theorem GoMap.set_nodup {V : Type} (m : GoMap V) (k : GoString) (v : V)
    (h : (m.map Prod.fst).Nodup) : ((GoMap.set m k v).map Prod.fst).Nodup := by
  rw [GoMap.set_keys]
  split
  · exact h
  · rename_i hk
    rw [List.nodup_append]
    refine ⟨h, List.nodup_singleton k, ?_⟩
    intro a ha hb
    rw [List.mem_singleton] at hb
    subst hb
    exact hk ha

theorem GoMap.mem_set {V : Type} (m : GoMap V) (k : GoString) (v : V) (p : GoString × V)
    (h : p ∈ GoMap.set m k v) : p = (k, v) ∨ p ∈ m := by
  induction m with
  | nil => left; simpa [GoMap.set] using h
  | cons q m ih =>
    obtain ⟨k', v'⟩ := q
    unfold GoMap.set at h
    by_cases hk : k' = k
    · rw [if_pos hk] at h
      rcases List.mem_cons.mp h with h | h
      · left; exact h
      · right; exact List.mem_cons_of_mem _ h
    · rw [if_neg hk] at h
      rcases List.mem_cons.mp h with h | h
      · right; rw [h]; exact List.mem_cons_self _ _
      · rcases ih h with h | h
        · left; exact h
        · right; exact List.mem_cons_of_mem _ h

theorem GoMap.set_mem_self {V : Type} (m : GoMap V) (k : GoString) (v : V) :
    (k, v) ∈ GoMap.set m k v := by
  induction m with
  | nil => simp [GoMap.set]
  | cons q m ih =>
    obtain ⟨k', v'⟩ := q
    unfold GoMap.set
    by_cases hk : k' = k
    · rw [if_pos hk]; exact List.mem_cons_self _ _
    · rw [if_neg hk]; exact List.mem_cons_of_mem _ ih

theorem GoMap.set_mem_other {V : Type} (m : GoMap V) (k : GoString) (v : V)
    (p : GoString × V) (h : p ∈ m) (hk : p.1 ≠ k) : p ∈ GoMap.set m k v := by
  induction m with
  | nil => cases h
  | cons q m ih =>
    obtain ⟨k', v'⟩ := q
    unfold GoMap.set
    by_cases hk' : k' = k
    · rw [if_pos hk']
      rcases List.mem_cons.mp h with h | h
      · subst h; exact absurd hk' hk
      · exact List.mem_cons_of_mem _ h
    · rw [if_neg hk']
      rcases List.mem_cons.mp h with h | h
      · rw [h]; exact List.mem_cons_self _ _
      · exact List.mem_cons_of_mem _ (ih h)

/-! ## The loop of `MakeFilesMap` -/

theorem mappedLoop_total (wd t : GoString) (rest : List GoString) (m : GoMap GoString) :
    ∃ m', mappedLoop (.ok wd) t rest m = .ok m' := by
  induction rest generalizing m with
  | nil => exact ⟨m, rfl⟩
  | cons f rest ih =>
    obtain ⟨k, hk⟩ := Abs_total wd f
    unfold mappedLoop
    rw [hk]
    exact ih _

theorem mappedLoop_inv (getwd : Except Err GoString) (t : GoString) (all : List GoString)
    (rest : List GoString) (m m' : GoMap GoString) (hinv : MappedInv getwd t all m)
    (hsub : ∀ f ∈ rest, f ∈ all) (h : mappedLoop getwd t rest m = .ok m') :
    MappedInv getwd t all m' ∧ (∀ p ∈ m, p ∈ m') ∧
      ∀ f ∈ rest, ∀ k, Abs getwd f = .ok k → (k, TrimPrefix k t) ∈ m' := by
  induction rest generalizing m with
  | nil =>
    simp only [mappedLoop, Except.ok.injEq] at h
    subst h
    exact ⟨hinv, fun p hp => hp, fun f hf => absurd hf (List.not_mem_nil f)⟩
  | cons f rest ih =>
    unfold mappedLoop at h
    cases hk : Abs getwd f with
    | error e => rw [hk] at h; cases h
    | ok k =>
      rw [hk] at h
      simp only at h
      have hfall : f ∈ all := hsub f (List.mem_cons_self _ _)
      have hinv1 : MappedInv getwd t all (GoMap.set m k (TrimPrefix k t)) := by
        refine ⟨GoMap.set_nodup m k _ hinv.1, ?_⟩
        intro p hp
        rcases GoMap.mem_set m k _ p hp with hp | hp
        · rw [hp]; exact ⟨rfl, f, hfall, hk⟩
        · exact hinv.2 p hp
      obtain ⟨h1, h2, h3⟩ := ih (GoMap.set m k (TrimPrefix k t)) hinv1
        (fun g hg => hsub g (List.mem_cons_of_mem _ hg)) h
      refine ⟨h1, ?_, ?_⟩
      · intro p hp
        apply h2
        by_cases hpk : p.1 = k
        · have hp2 := (hinv.2 p hp).1
          have : p = (k, TrimPrefix k t) := by
            rw [← hpk, ← hp2]
          rw [this]
          exact GoMap.set_mem_self m k _
        · exact GoMap.set_mem_other m k _ p hp hpk
      · intro g hg k' hk'
        rcases List.mem_cons.mp hg with hg | hg
        · subst hg
          rw [hk] at hk'
          simp only [Except.ok.injEq] at hk'
          subst hk'
          exact h2 _ (GoMap.set_mem_self m k _)
        · exact h3 g hg k' hk'

/-- What `mapped` returns: the loop run on the resolved `trimDir` with its separator. -/
theorem mapped_spec (getwd : Except Err GoString) (files : List GoString)
    (trimDir : GoString) (m : GoMap GoString) (h : mapped getwd files trimDir = .ok m) :
    ∃ t, Abs getwd trimDir = .ok t ∧
      MappedInv getwd (t ++ [Separator]) files m ∧
      ∀ f ∈ files, ∀ k, Abs getwd f = .ok k → (k, TrimPrefix k (t ++ [Separator])) ∈ m := by
  unfold mapped at h
  cases ht : Abs getwd trimDir with
  | error e => rw [ht] at h; cases h
  | ok t =>
    rw [ht] at h
    simp only at h
    have hinit : MappedInv getwd (t ++ [Separator]) files [] :=
      ⟨List.nodup_nil, fun p hp => absurd hp (List.not_mem_nil p)⟩
    obtain ⟨h1, -, h3⟩ := mappedLoop_inv getwd (t ++ [Separator]) files files [] m hinit
      (fun f hf => hf) h
    exact ⟨t, rfl, h1, h3⟩

theorem mappedLoop_error (getwd : Except Err GoString) (t : GoString)
    (rest : List GoString) (m0 : GoMap GoString) (f : GoString) (e : Err) (hf : f ∈ rest)
    (hAf : Abs getwd f = .error e) (m : GoMap GoString)
    (h : mappedLoop getwd t rest m0 = .ok m) : False := by
  induction rest generalizing m0 with
  | nil => cases hf
  | cons g rest ih =>
    unfold mappedLoop at h
    cases hg : Abs getwd g with
    | error e' => rw [hg] at h; cases h
    | ok k =>
      rw [hg] at h
      simp only at h
      rcases List.mem_cons.mp hf with hf | hf
      · subst hf; rw [hAf] at hg; cases hg
      · exact ih _ hf h

/-! ## Claims on `MakeFilesMap` -/

/-- C1 (defect of the code): with the working directory `/`, the files `go.mod` and
`go.sum` and `trimDir = "."` lie directly below the resolved `trimDir`, but the prefix
that is stripped is `"//"` (the root with a second separator appended), which no
cleaned path starts with, so both keep their absolute path as logical name instead of
`go.mod` and `go.sum`.  The same happens for `trimDir = "/"` from any directory. -/
theorem mapped_root_trimDir :
    mapped (.ok "/".toList) ["go.mod".toList, "go.sum".toList] ".".toList
      = .ok [("/go.mod".toList, "/go.mod".toList), ("/go.sum".toList, "/go.sum".toList)] ∧
    mapped (.ok "/home/u".toList) ["/a/b.txt".toList] "/".toList
      = .ok [("/a/b.txt".toList, "/a/b.txt".toList)] ∧
    mapped (.ok "/home/u".toList) ["a/b.txt".toList] "a".toList
      = .ok [("/home/u/a/b.txt".toList, "b.txt".toList)] := by
  refine ⟨?_, ?_, ?_⟩ <;> rfl

/-- C7 (as stated, refuted): a file that is not below `trimDir` and a file equal to
`trimDir` keep their absolute path, which starts with a separator, as logical name;
the archive directory name of `/` is the separator and that of `..` is `..`. -/
theorem names_not_relative :
    (mapped (.ok "/wd".toList) ["/x/y".toList, "/a".toList] "/a".toList
      = .ok [("/x/y".toList, "/x/y".toList), ("/a".toList, "/a".toList)] ∧
      LeadingSep "/x/y".toList ∧ LeadingSep "/a".toList) ∧
    (archiveDirName "/".toList = "/".toList ∧ LeadingSep (archiveDirName "/".toList)) ∧
    (archiveDirName "..".toList = "..".toList ∧ HasDotDot (archiveDirName "..".toList)) := by
  refine ⟨⟨rfl, by decide, by decide⟩, ⟨by decide, by decide⟩, ⟨by decide, by decide⟩⟩

/-- C7 (amended): a file whose resolved path is the resolved `trimDir`, a separator and
a rest `r` is mapped to `r`, and `r` is not empty, has no leading separator and no `..`
segment; the archive directory name of a directory whose cleaned path is not the
root and does not end in a `..` segment has no leading separator and no `..` segment. -/
theorem names_relative (getwd : Except Err GoString) (files : List GoString)
    (trimDir file t r : GoString) (m : GoMap GoString) (dir : GoString)
    (hwd : RootedWd getwd) (hm : mapped getwd files trimDir = .ok m)
    (ht : Abs getwd trimDir = .ok t) (hf : file ∈ files)
    (hk : Abs getwd file = .ok (t ++ Separator :: r))
    (hroot : Clean dir ≠ [Separator])
    (hdd : (segments (Clean dir)).getLast? ≠ some dotdotElem) :
    ((t ++ Separator :: r, r) ∈ m ∧ r ≠ [] ∧ ¬ LeadingSep r ∧ ¬ HasDotDot r) ∧
    (¬ LeadingSep (archiveDirName dir) ∧ ¬ HasDotDot (archiveDirName dir)) := by
  constructor
  · obtain ⟨t', ht', -, hcov⟩ := mapped_spec getwd files trimDir m hm
    rw [ht] at ht'
    simp only [Except.ok.injEq] at ht'
    subst ht'
    have hmem := hcov file hf _ hk
    have htrim : TrimPrefix (t ++ Separator :: r) (t ++ [Separator]) = r := by
      have := TrimPrefix_append (t ++ [Separator]) r
      simpa using this
    rw [htrim] at hmem
    obtain ⟨q, hq, hqc⟩ := Abs_rooted getwd file _ hwd hk
    obtain ⟨qt, -, hqt⟩ := Abs_rooted getwd trimDir _ hwd ht
    have htne : t ≠ [] := by rw [hqt]; exact Clean_ne_nil qt
    exact ⟨hmem, Clean_below q t r hq htne hqc.symm⟩
  · by_cases hd : dir = ['.']
    · have : archiveDirName dir = [] := by simp [archiveDirName, hd]
      rw [this]
      exact ⟨by decide, by decide⟩
    · have ha : archiveDirName dir = Base (Clean dir) := by
        unfold archiveDirName
        rw [if_neg hd]
      rcases Clean_last dir with h | ⟨init, x, h, hx⟩
      · exact absurd h hroot
      · have hcomp : Comp (archiveDirName dir) := by
          rw [ha, h]; exact (Base_of_last init x hx).1
        constructor
        · rintro ⟨rest, hrest⟩
          have := hcomp.2 Separator (by rw [hrest]; exact List.mem_cons_self _ _)
          rw [isPathSeparator_sep] at this
          cases this
        · intro hh
          unfold HasDotDot at hh
          rw [segments_comp _ hcomp.2, List.mem_singleton] at hh
          apply hdd
          rw [h, Base_last_segment init x hx, ← h, ← ha, hh]

/-- Instance of `names_relative`: `a/b.txt` with `trimDir = "a"` in the working directory
`/wd`, and the directory `./project`. -/
theorem names_relative_witness :
    (("/wd/a".toList ++ Separator :: "b.txt".toList, "b.txt".toList) ∈
        [("/wd/a/b.txt".toList, "b.txt".toList)] ∧
      "b.txt".toList ≠ [] ∧ ¬ LeadingSep "b.txt".toList ∧ ¬ HasDotDot "b.txt".toList) ∧
    (¬ LeadingSep (archiveDirName "./project".toList) ∧
      ¬ HasDotDot (archiveDirName "./project".toList)) :=
  names_relative (.ok "/wd".toList) ["a/b.txt".toList] "a".toList "a/b.txt".toList
    "/wd/a".toList "b.txt".toList [("/wd/a/b.txt".toList, "b.txt".toList)] "./project".toList
    (by decide) rfl rfl (by decide) rfl (by decide) (by decide)

/-- C8: with a rooted working directory, `MakeFilesMap` builds its map whenever the working
directory is known; the map has one pair per resolved path (a file listed twice gives one
pair), its keys are exactly the resolved paths of the listed files, and two pairs with the
same logical name have the same physical path. -/
theorem mapped_unique (getwd : Except Err GoString) (files : List GoString)
    (trimDir : GoString) (hwd : RootedWd getwd) :
    (∀ wd, getwd = .ok wd → ∃ m, mapped getwd files trimDir = .ok m) ∧
    ∀ m, mapped getwd files trimDir = .ok m →
      (m.map Prod.fst).Nodup ∧
      (∀ p ∈ m, ∃ f ∈ files, Abs getwd f = .ok p.1) ∧
      (∀ f ∈ files, ∃ p ∈ m, Abs getwd f = .ok p.1) ∧
      (∀ p1 ∈ m, ∀ p2 ∈ m, p1.2 = p2.2 → p1.1 = p2.1) := by
  constructor
  · intro wd hg
    subst hg
    unfold mapped
    obtain ⟨t, ht⟩ := Abs_total wd trimDir
    rw [ht]
    exact mappedLoop_total wd _ files []
  · intro m hm
    obtain ⟨t, ht, hinv, hcov⟩ := mapped_spec getwd files trimDir m hm
    obtain ⟨qt, -, hqt⟩ := Abs_rooted getwd trimDir t hwd ht
    have htne : t ≠ [] := by rw [hqt]; exact Clean_ne_nil qt
    refine ⟨hinv.1, fun p hp => (hinv.2 p hp).2, ?_, ?_⟩
    · intro f hf
      have hfk : ∃ k, Abs getwd f = .ok k := by
        cases hAf : Abs getwd f with
        | ok k => exact ⟨k, rfl⟩
        | error e =>
          exfalso
          unfold mapped at hm
          rw [ht] at hm
          simp only at hm
          exact mappedLoop_error getwd _ files [] f e hf hAf m hm
      obtain ⟨k, hk⟩ := hfk
      exact ⟨_, hcov f hf k hk, hk⟩
    · intro p1 hp1 p2 hp2 h
      obtain ⟨hv1, f1, -, hf1⟩ := hinv.2 p1 hp1
      obtain ⟨hv2, f2, -, hf2⟩ := hinv.2 p2 hp2
      obtain ⟨q1, hq1, hc1⟩ := Abs_rooted getwd f1 _ hwd hf1
      obtain ⟨q2, hq2, hc2⟩ := Abs_rooted getwd f2 _ hwd hf2
      rw [hc1, hc2]
      apply TrimPrefix_injective t q1 q2 htne hq1 hq2
      rw [← hc1, ← hc2, ← hv1, ← hv2, h]

/-- Instance of `mapped_unique`: a file listed under two spellings and a second file, in
the working directory `/wd`. -/
theorem mapped_unique_witness :
    ∃ m, mapped (.ok "/wd".toList) ["a/b.txt".toList, "./a/b.txt".toList, "c".toList]
        "a".toList = .ok m ∧
      (m.map Prod.fst).Nodup ∧ (∀ p1 ∈ m, ∀ p2 ∈ m, p1.2 = p2.2 → p1.1 = p2.1) := by
  have h := mapped_unique (.ok "/wd".toList)
    ["a/b.txt".toList, "./a/b.txt".toList, "c".toList] "a".toList (by decide)
  obtain ⟨m, hm⟩ := h.1 _ rfl
  exact ⟨m, hm, (h.2 m hm).1, (h.2 m hm).2.2.2⟩

/-! ## Claims on `Archive` and `ArchiveFiles` -/

/-- C4: when `os.Stat` reports that the source directory does not exist, `Archive`
returns the error "directory does not exist" and the filesystem it leaves is the one
it was given: nothing is removed, created or truncated. -/
theorem Archive_missing_dir {FS : Type} (sys : Sys FS) (ctx : Context) (fs : FS)
    (dir outfile : GoString) (compression : Option Compression) (archival : Option Archival)
    (h : IsNotExist (sys.Stat fs dir) = true) :
    Archive sys ctx fs dir outfile compression archival = (fs, some (.dirMissing dir)) := by
  unfold Archive
  rw [if_pos]
  · rfl
  · simp [isExist, logging, h]

/-- Instance of `Archive_missing_dir` in the model world: the source is missing and the
output of a prior run stays as it is. -/
theorem Archive_missing_dir_witness :
    Archive toySys liveCtx [("out.zip".toList, "OLD".toList)] "project".toList "out.zip".toList
        (some .Gz) (some .Tar)
      = ([("out.zip".toList, "OLD".toList)], some (.dirMissing "project".toList)) :=
  Archive_missing_dir toySys liveCtx [("out.zip".toList, "OLD".toList)] "project".toList
    "out.zip".toList (some .Gz) (some .Tar) (by decide)

/-- C5 (as stated, refuted), evaluated in the model world.  A source directory that is
missing makes both of two calls in a row fail.  And with the output placed inside the
source directory both calls succeed, but the second one also archives the output file
the first one left there, so its output differs from that of a single call on a fresh
output path. -/
theorem Archive_twice_differs :
    ((Archive toySys liveCtx [] "project".toList "out.zip".toList none (some .Zip)).2
        = some (.dirMissing "project".toList) ∧
      (Archive toySys liveCtx
          (Archive toySys liveCtx [] "project".toList "out.zip".toList none (some .Zip)).1
          "project".toList "out.zip".toList none (some .Zip)).2
        = some (.dirMissing "project".toList)) ∧
    ((Archive toySys liveCtx [("project/a.txt".toList, "hello".toList)] "project".toList
          "project/out.zip".toList none (some .Zip)).2 = none ∧
      (Archive toySys liveCtx
          (Archive toySys liveCtx [("project/a.txt".toList, "hello".toList)] "project".toList
            "project/out.zip".toList none (some .Zip)).1
          "project".toList "project/out.zip".toList none (some .Zip)).2 = none ∧
      GoMap.index (Archive toySys liveCtx [("project/a.txt".toList, "hello".toList)]
          "project".toList "project/out.zip".toList none (some .Zip)).1 "project/out.zip".toList
        = some "project/a.txt=hello;".toList ∧
      GoMap.index (Archive toySys liveCtx
          (Archive toySys liveCtx [("project/a.txt".toList, "hello".toList)] "project".toList
            "project/out.zip".toList none (some .Zip)).1
          "project".toList "project/out.zip".toList none (some .Zip)).1 "project/out.zip".toList
        = some "project/a.txt=hello;project/out.zip=;".toList) := by
  refine ⟨⟨?_, ?_⟩, ?_, ?_, ?_, ?_⟩ <;> rfl

/-- C5 (amended): once the source directory exists and the collector succeeds, the
outcome of `Archive` (error and filesystem) depends on the starting filesystem only
through what `os.RemoveAll` leaves of it: two starting states that differ only in
what the output path holds, so that removal maps them to the same state and the
collector lists the same entries, give the same outcome.  Nothing of an earlier
output is merged in or left over. -/
theorem Archive_overwrites {FS : Type} (sys : Sys FS) (ctx : Context) (fs fs' : FS)
    (dir outfile : GoString) (compression : Option Compression) (archival : Option Archival)
    (files : List FileInfo)
    (hex : isExist sys fs dir = true) (hex' : isExist sys fs' dir = true)
    (hfiles : makeDirMap sys ctx fs dir = .ok files)
    (hfiles' : makeDirMap sys ctx fs' dir = .ok files)
    (hrm : sys.RemoveAll fs outfile = sys.RemoveAll fs' outfile) :
    Archive sys ctx fs dir outfile compression archival
      = Archive sys ctx fs' dir outfile compression archival := by
  have h1 : Archive sys ctx fs dir outfile compression archival
      = ArchiveFiles sys ctx fs files outfile compression archival := by
    unfold Archive
    simp only [logging] at *
    rw [if_neg (by simp [hex]), hfiles]
  have h2 : Archive sys ctx fs' dir outfile compression archival
      = ArchiveFiles sys ctx fs' files outfile compression archival := by
    unfold Archive
    simp only [logging] at *
    rw [if_neg (by simp [hex']), hfiles']
  rw [h1, h2]
  unfold ArchiveFiles
  simp only [logging]
  rw [hrm]

/-- Instance of `Archive_overwrites` in the model world: a filesystem holding an old
output and the same filesystem without it. -/
theorem Archive_overwrites_witness :
    Archive toySys liveCtx
        [("out.zip".toList, "OLD".toList), ("project/a.txt".toList, "hello".toList)]
        "project".toList "out.zip".toList (some .Gz) (some .Tar)
      = Archive toySys liveCtx [("project/a.txt".toList, "hello".toList)]
        "project".toList "out.zip".toList (some .Gz) (some .Tar) :=
  Archive_overwrites toySys liveCtx
    [("out.zip".toList, "OLD".toList), ("project/a.txt".toList, "hello".toList)]
    [("project/a.txt".toList, "hello".toList)] "project".toList "out.zip".toList
    (some .Gz) (some .Tar)
    [{ NameInArchive := "project/a.txt".toList, onDisk := "project/a.txt".toList }]
    (by decide) (by decide) rfl rfl rfl

/-- C9 (as stated, refuted), evaluated in the model world: with a context that is
already cancelled the collector reports the cancellation, `Archive` returns it before
`ArchiveFiles` is reached, and the output of a prior run is still in place, not empty.
With a missing source directory the error returned is not even a cancellation error. -/
theorem Archive_cancelled_keeps_output :
    (Archive toySys cancelledCtx [("out.zip".toList, "OLD".toList)] "project".toList
        "out.zip".toList none (some .Zip)
      = ([("out.zip".toList, "OLD".toList)], some (.dirMissing "project".toList)) ∧
      (Err.dirMissing "project".toList).isCanceled = false) ∧
    Archive toySys cancelledCtx
        [("out.zip".toList, "OLD".toList), ("project/a.txt".toList, "hello".toList)]
        "project".toList "out.zip".toList none (some .Zip)
      = ([("out.zip".toList, "OLD".toList), ("project/a.txt".toList, "hello".toList)],
          some (.mapping "project".toList .canceled)) ∧
    (Err.mapping "project".toList .canceled).isCanceled = true ∧
    GoMap.index (Archive toySys cancelledCtx
        [("out.zip".toList, "OLD".toList), ("project/a.txt".toList, "hello".toList)]
        "project".toList "out.zip".toList none (some .Zip)).1 "out.zip".toList
      = some "OLD".toList := by
  refine ⟨⟨?_, ?_⟩, ?_, ?_, ?_⟩ <;> rfl

/-- C9 (amended): for an existing source directory, an error of the collector (such as
the cancellation of the context) is returned wrapped, is a cancellation error exactly
when its cause is one, and leaves the filesystem as it was, the output of a prior run
included; when the collector succeeds, the old output is removed and a new one created
before the pipeline runs, and an error of the pipeline (such as the cancellation) is
returned wrapped after the output file is closed. -/
theorem Archive_cancelled {FS : Type} (sys : Sys FS) (ctx : Context) (fs : FS)
    (dir outfile : GoString) (compression : Option Compression) (archival : Option Archival)
    (hex : isExist sys fs dir = true) :
    (∀ e, makeDirMap sys ctx fs dir = .error e →
      Archive sys ctx fs dir outfile compression archival = (fs, some (.mapping dir e)) ∧
      (Err.mapping dir e).isCanceled = e.isCanceled) ∧
    (∀ files fs1 fs2 fs3 e, makeDirMap sys ctx fs dir = .ok files →
      sys.RemoveAll fs outfile = (fs1, none) → sys.Create fs1 outfile = (fs2, none) →
      sys.ArchiveTo compression archival ctx fs2 outfile files = (fs3, some e) →
      Archive sys ctx fs dir outfile compression archival
        = (sys.Close fs3 outfile, some (.archiveCreation outfile e)) ∧
      (Err.archiveCreation outfile e).isCanceled = e.isCanceled) := by
  constructor
  · intro e he
    refine ⟨?_, rfl⟩
    unfold Archive
    simp only [logging] at *
    rw [if_neg (by simp [hex]), he]
  · intro files fs1 fs2 fs3 e hfiles hrm hcr har
    refine ⟨?_, rfl⟩
    unfold Archive ArchiveFiles
    simp only [logging] at *
    rw [if_neg (by simp [hex]), hfiles]
    simp only [hrm, hcr, har]

/-- Instance of `Archive_cancelled` in the model world, with a cancelled context. -/
theorem Archive_cancelled_witness :
    Archive toySys cancelledCtx
        [("out.zip".toList, "OLD".toList), ("project/a.txt".toList, "hello".toList)]
        "project".toList "out.zip".toList none (some .Zip)
      = ([("out.zip".toList, "OLD".toList), ("project/a.txt".toList, "hello".toList)],
          some (.mapping "project".toList .canceled)) :=
  ((Archive_cancelled toySys cancelledCtx
    [("out.zip".toList, "OLD".toList), ("project/a.txt".toList, "hello".toList)]
    "project".toList "out.zip".toList none (some .Zip) (by decide)).1 .canceled rfl).1

/-! ## Claims on the registry -/

theorem index_cons {V : Type} (k k' : GoString) (v : V) (m : GoMap V) :
    GoMap.index ((k', v) :: m) k = if k = k' then some v else GoMap.index m k := by
  unfold GoMap.index
  rw [List.lookup_cons]
  by_cases h : k = k'
  · simp [h]
  · have : (k == k') = false := by simpa using h
    rw [this, if_neg h]

theorem index_eq_none_iff {V : Type} (m : GoMap V) (k : GoString) :
    GoMap.index m k = none ↔ k ∉ m.map Prod.fst := by
  induction m with
  | nil => simp [GoMap.index]
  | cons p m ih =>
    obtain ⟨k', v'⟩ := p
    rw [index_cons]
    rw [List.map_cons]
    by_cases h : k = k'
    · subst h
      rw [if_pos rfl]
      constructor
      · intro hh; cases hh
      · intro hh; exact absurd (List.mem_cons_self _ _) hh
    · rw [if_neg h, ih]
      constructor
      · intro hh hm
        rcases List.mem_cons.mp hm with e | e
        · exact h e
        · exact hh e
      · intro hh hm
        exact hh (List.mem_cons_of_mem _ hm)

theorem index_eq_some_iff {V : Type} (m : GoMap V) (k : GoString) (v : V)
    (hnd : (m.map Prod.fst).Nodup) : GoMap.index m k = some v ↔ (k, v) ∈ m := by
  induction m with
  | nil => simp [GoMap.index]
  | cons p m ih =>
    obtain ⟨k', v'⟩ := p
    rw [List.map_cons, List.nodup_cons] at hnd
    rw [index_cons]
    by_cases h : k = k'
    · subst h
      rw [if_pos rfl]
      constructor
      · intro hv
        simp only [Option.some.injEq] at hv
        rw [hv]; exact List.mem_cons_self _ _
      · intro hm
        rcases List.mem_cons.mp hm with hm | hm
        · simp only [Prod.mk.injEq] at hm
          rw [hm.2]
        · exact absurd (List.mem_map_of_mem Prod.fst hm) hnd.1
    · rw [if_neg h, ih hnd.2]
      constructor
      · exact fun hm => List.mem_cons_of_mem _ hm
      · intro hm
        rcases List.mem_cons.mp hm with hm | hm
        · simp only [Prod.mk.injEq] at hm
          exact absurd hm.1 h
        · exact hm

theorem value_injective {V : Type} (m : GoMap V) (hv : (m.map Prod.snd).Nodup)
    (k k' : GoString) (v : V) (h1 : (k, v) ∈ m) (h2 : (k', v) ∈ m) : k = k' := by
  induction m with
  | nil => cases h1
  | cons p m ih =>
    rw [List.map_cons, List.nodup_cons] at hv
    rcases List.mem_cons.mp h1 with h1 | h1 <;> rcases List.mem_cons.mp h2 with h2 | h2
    · rw [← h2] at h1
      simp only [Prod.mk.injEq] at h1
      exact h1.1
    · have hm : v ∈ m.map Prod.snd := List.mem_map_of_mem Prod.snd h2
      rw [← h1] at hv
      exact absurd hm hv.1
    · have hm : v ∈ m.map Prod.snd := List.mem_map_of_mem Prod.snd h1
      rw [← h2] at hv
      exact absurd hm hv.1
    · exact ih hv.2 h1 h2

/-- C10 (as stated, refuted): indexing `ArchivalMap` with an identifier it does not hold
is not an error; it yields the same `nil` value as indexing `CompressionMap` with an
unknown identifier does. -/
theorem ArchivalMap_unknown :
    GoMap.index ArchivalMap "rar".toList = none ∧
    GoMap.index ArchivalMap [] = none ∧
    GoMap.index CompressionMap "rar".toList = none := by
  decide

/-- C10 (amended): `CompressionMap` yields a codec exactly for the identifiers gz, bz2,
xz, zst, lz4, br, lz, sz, zz, a different codec for each, and `nil` for every other
string; `ArchivalMap` yields a container exactly for tar and zip, a different one for
each, and `nil` for every other string. -/
theorem registry_lookup (id : GoString) :
    ((GoMap.index CompressionMap id).isSome = true ↔ id ∈ compressionIDs) ∧
    (id ∉ compressionIDs ↔ GoMap.index CompressionMap id = none) ∧
    (∀ id' c, GoMap.index CompressionMap id = some c →
      GoMap.index CompressionMap id' = some c → id = id') ∧
    ((GoMap.index ArchivalMap id).isSome = true ↔ id ∈ archivalIDs) ∧
    (id ∉ archivalIDs ↔ GoMap.index ArchivalMap id = none) ∧
    (∀ id' a, GoMap.index ArchivalMap id = some a →
      GoMap.index ArchivalMap id' = some a → id = id') := by
  have kC : CompressionMap.map Prod.fst = compressionIDs := rfl
  have kA : ArchivalMap.map Prod.fst = archivalIDs := rfl
  have ndC : (CompressionMap.map Prod.fst).Nodup := by decide
  have ndA : (ArchivalMap.map Prod.fst).Nodup := by decide
  have nvC : (CompressionMap.map Prod.snd).Nodup := by decide
  have nvA : (ArchivalMap.map Prod.snd).Nodup := by decide
  have hnC := index_eq_none_iff CompressionMap id
  have hnA := index_eq_none_iff ArchivalMap id
  rw [kC] at hnC
  rw [kA] at hnA
  refine ⟨?_, hnC.symm, ?_, ?_, hnA.symm, ?_⟩
  · rw [← not_iff_not, ← hnC]
    cases GoMap.index CompressionMap id <;> simp
  · intro id' c h1 h2
    exact value_injective CompressionMap nvC id id' c
      ((index_eq_some_iff _ _ _ ndC).mp h1) ((index_eq_some_iff _ _ _ ndC).mp h2)
  · rw [← not_iff_not, ← hnA]
    cases GoMap.index ArchivalMap id <;> simp
  · intro id' a h1 h2
    exact value_injective ArchivalMap nvA id id' a
      ((index_eq_some_iff _ _ _ ndA).mp h1) ((index_eq_some_iff _ _ _ ndA).mp h2)

end Arc
